import Mathlib

/-!
Verification of the parallel-algorithms engine in src/parallel_algorithms.c
(parallel_reduce, parallel_transform, merge / mergesort_serial /
mergesort_parallel / parallel_sort).

Modelling conventions (shallow embedding):

* `double` values are modelled as `ℚ` ("exact arithmetic" in the spec's sense);
  C `int` indices are `ℕ` where they are always non-negative, and `Int` for the
  depth budget, which the spec quantifies over negative values as well.
* Arrays are `List ℚ`; the in-place functions become functions returning the
  new array contents.
* The auxiliary buffer `temp` is elided from the state: in `merge`, the two
  while loops completely fill `temp[left..right]` before the copy-back loop
  reads it, and no other code reads `temp`; hence the evolution of `arr` is a
  function of `arr` alone.
* OpenMP constructs are modelled by their observable semantics:
  - `omp parallel for reduction(op:result)` gives each thread a private
    accumulator initialised to the operator's identity, partitions the
    iteration range into chunks, folds every chunk, and combines the partial
    results with the incoming value of `result` (`ompChunkedReduce` below).
  - `omp parallel for` on the transform loop executes each iteration exactly
    once in an unspecified order (`parallel_transform` below takes the
    execution order as a parameter).
  - the two `omp task`s in `mergesort_parallel` operate on the disjoint index
    ranges `[left, mid]` and `[mid+1, right]` of `arr` and `temp` and are
    joined by `taskwait` before `merge` runs, so their concurrent execution is
    observationally the sequential composition used below.
* In C, `right - left` is an `int` subtraction and `parallel_sort` passes
  `right = size - 1`, which is `-1` for `size = 0`.  In the model the
  subtractions are truncated `ℕ` subtraction; the two agree on every reachable
  call: recursive calls always have `left ≤ right`, and for `size = 0` both
  the C code (`right = -1 < left`) and the model (`right = 0 = left`) fall into
  the sequential branch and do nothing.
-/

/-- The operator selected by the `switch(op)` in `parallel_reduce`:
`0` is `result += arr[i]`, `1` is `result *= arr[i]`,
`2` is `if (arr[i] > result) result = arr[i]`,
`3` is `if (arr[i] < result) result = arr[i]`.
An op outside the switch leaves the accumulator untouched. -/
def opFun (op : Int) : ℚ → ℚ → ℚ :=
  if op = 0 then fun result a => result + a
  else if op = 1 then fun result a => result * a
  else if op = 2 then fun result a => if a > result then a else result
  else if op = 3 then fun result a => if a < result then a else result
  else fun result _ => result

/-- `parallel_reduce(arr, size, initial, op)`.  `result` starts at `initial`;
each `case` of the `switch` folds the loop body over the array; a `switch`
with no matching `case` (no `default:` branch) runs no loop, so `result` is
returned as `initial`. -/
def parallel_reduce (arr : List ℚ) (initial : ℚ) (op : Int) : ℚ :=
  if op = 0 then arr.foldl (opFun 0) initial
  else if op = 1 then arr.foldl (opFun 1) initial
  else if op = 2 then arr.foldl (opFun 2) initial
  else if op = 3 then arr.foldl (opFun 3) initial
  else initial

/-- One thread's private accumulator for an `omp reduction` over its chunk `c`
of iterations: it starts at the operator's identity (0 for `+`, 1 for `*`,
`-∞` for `max`, `+∞` for `min`).  `ℚ` has no `±∞`, so the accumulator is an
`Option ℚ` whose `none` plays the role of the identity; for `+` and `*`
folding from `none` agrees with folding from the literal identity because
`0 + a = a` and `1 * a = a`. -/
def chunkAcc (f : ℚ → ℚ → ℚ) (c : List ℚ) : Option ℚ :=
  c.foldl (fun r a => some (match r with | none => a | some v => f v a)) none

/-- Combining one thread's partial result into the accumulated value; an
identity partial (empty chunk) contributes nothing. -/
def combineOne (f : ℚ → ℚ → ℚ) (x : ℚ) : Option ℚ → ℚ
  | none => x
  | some v => f x v

/-- Observable semantics of `#pragma omp parallel for reduction(op:result)`:
the iteration range is split into per-thread chunks (`chunks`, whose
concatenation is the array), every chunk is folded from the identity, and the
partial results are combined with the incoming value of `result`. -/
def ompChunkedReduce (f : ℚ → ℚ → ℚ) (chunks : List (List ℚ)) (initial : ℚ) : ℚ :=
  (chunks.map (chunkAcc f)).foldl (combineOne f) initial

/-- `parallel_transform(in, out, size, func)`: the `omp parallel for` executes
the body `out[i] = func(in[i])` once for every iteration index; `order` lists
the indices in the order their writes land.  Out-of-range writes do not occur
in a real execution (`List.set` ignores them). -/
def parallel_transform (func : ℚ → ℚ) (inp out : List ℚ) (order : List ℕ) : List ℚ :=
  order.foldl (fun o i => o.set i (func (inp.getD i 0))) out

/-- The contents of `arr[left..right]` (inclusive bounds, as in the C code). -/
def sliceRange (arr : List ℚ) (left right : ℕ) : List ℚ :=
  (arr.drop left).take (right + 1 - left)

/-- The two while loops of `merge`: repeatedly take the smaller head, the left
run first on ties (`arr[i] <= arr[j]`), then flush the leftover run. -/
def mergeLists : List ℚ → List ℚ → List ℚ
  | [], ys => ys
  | xs, [] => xs
  | x :: xs, y :: ys =>
    if x ≤ y then x :: mergeLists xs (y :: ys) else y :: mergeLists (x :: xs) ys
termination_by xs ys => xs.length + ys.length

/-- `merge(arr, temp, left, mid, right)`: the while loops write the merge of
the runs `arr[left..mid]` and `arr[mid+1..right]` into `temp[left..right]`,
and the final loop copies `temp[left..right]` back over `arr[left..right]`;
everything outside `[left, right]` is untouched. -/
def merge (arr : List ℚ) (left mid right : ℕ) : List ℚ :=
  arr.take left ++ mergeLists (sliceRange arr left mid) (sliceRange arr (mid + 1) right)
    ++ arr.drop (right + 1)

/-- `mergesort_serial(arr, temp, left, right)`. -/
def mergesort_serial (arr : List ℚ) (left right : ℕ) : List ℚ :=
  if left < right then
    let mid := left + (right - left) / 2
    merge (mergesort_serial (mergesort_serial arr left mid) (mid + 1) right)
      left mid right
  else arr
termination_by right - left
decreasing_by all_goals omega

/-- `mergesort_parallel(arr, temp, left, right, depth)`.  The two `omp task`s
run on the disjoint ranges `[left, mid]` and `[mid+1, right]` and are joined
by `taskwait` before the merge, so the state after the join is the sequential
composition of the two recursive calls. -/
def mergesort_parallel (arr : List ℚ) (left right : ℕ) (depth : Int) : List ℚ :=
  if depth ≤ 0 ∨ right - left ≤ 1000 then
    mergesort_serial arr left right
  else if left < right then
    let mid := left + (right - left) / 2
    merge (mergesort_parallel (mergesort_parallel arr left mid (depth - 1))
        (mid + 1) right (depth - 1))
      left mid right
  else arr
termination_by right - left
decreasing_by all_goals omega

/-- The guard of `mergesort_parallel`'s first branch: the task executes the
sequential fallback (`mergesort_serial`) exactly when this is `true`. -/
def takesSequentialFallback (left right : ℕ) (depth : Int) : Bool :=
  decide (depth ≤ 0) || decide (right - left ≤ 1000)

/-- `parallel_sort(arr, size)`: allocates the auxiliary buffer (`allocOk`
models whether `malloc` succeeds; on failure the function returns at once),
reads `max_depth = omp_get_max_threads()` (a parameter here, since it is
environmental), and runs `mergesort_parallel(arr, temp, 0, size - 1,
max_depth)` from a single task.  The C return type is `void`, so the returned
array contents are the caller's entire observation. -/
def parallel_sort (allocOk : Bool) (max_depth : Int) (arr : List ℚ) : List ℚ :=
  if allocOk then mergesort_parallel arr 0 (arr.length - 1) max_depth else arr

/-- Top-down merge sort on a bare list, splitting as `mergesort_serial` does:
a range of `n` elements puts the first `(n + 1) / 2` (that is,
`mid - left + 1` for `mid = left + (right - left) / 2`) in the left half. -/
def sortList (l : List ℚ) : List ℚ :=
  if h : l.length ≤ 1 then l
  else
    mergeLists (sortList (l.take ((l.length + 1) / 2)))
      (sortList (l.drop ((l.length + 1) / 2)))
termination_by l.length
decreasing_by
  · simp only [List.length_take]; omega
  · simp only [List.length_drop]; omega

/-- The merge loops, run on value–tag pairs with the C comparison
`arr[i] <= arr[j]` applied to the values: the tag records which position an
element came from, so stability is expressible. -/
def mergeKeyed : List (ℚ × ℕ) → List (ℚ × ℕ) → List (ℚ × ℕ)
  | [], ys => ys
  | xs, [] => xs
  | x :: xs, y :: ys =>
    if x.1 ≤ y.1 then x :: mergeKeyed xs (y :: ys) else y :: mergeKeyed (x :: xs) ys
termination_by xs ys => xs.length + ys.length

/-! ### Lemmas about the merge loops -/

theorem mergeLists_nil_left (ys : List ℚ) : mergeLists [] ys = ys := by
  cases ys <;> simp [mergeLists]

theorem mergeLists_nil_right (xs : List ℚ) : mergeLists xs [] = xs := by
  cases xs <;> simp [mergeLists]

theorem mergeLists_cons_cons (x y : ℚ) (xs ys : List ℚ) :
    mergeLists (x :: xs) (y :: ys) =
      if x ≤ y then x :: mergeLists xs (y :: ys) else y :: mergeLists (x :: xs) ys := by
  simp [mergeLists]

theorem mergeLists_perm (xs ys : List ℚ) : (mergeLists xs ys).Perm (xs ++ ys) := by
  induction xs, ys using mergeLists.induct with
  | case1 ys => simp [mergeLists_nil_left]
  | case2 xs => simp [mergeLists_nil_right]
  | case3 x xs y ys h ih => rw [mergeLists_cons_cons, if_pos h]; exact ih.cons x
  | case4 x xs y ys h ih =>
    rw [mergeLists_cons_cons, if_neg h]
    exact (ih.cons y).trans List.perm_middle.symm

theorem mem_mergeLists {a : ℚ} {xs ys : List ℚ} :
    a ∈ mergeLists xs ys ↔ a ∈ xs ∨ a ∈ ys := by
  rw [(mergeLists_perm xs ys).mem_iff, List.mem_append]

theorem length_mergeLists (xs ys : List ℚ) :
    (mergeLists xs ys).length = xs.length + ys.length := by
  simpa using (mergeLists_perm xs ys).length_eq

theorem sorted_mergeLists {xs ys : List ℚ} (hx : xs.Sorted (· ≤ ·))
    (hy : ys.Sorted (· ≤ ·)) : (mergeLists xs ys).Sorted (· ≤ ·) := by
  induction xs, ys using mergeLists.induct with
  | case1 ys => rwa [mergeLists_nil_left]
  | case2 xs => rwa [mergeLists_nil_right]
  | case3 x xs y ys h ih =>
    rw [mergeLists_cons_cons, if_pos h, List.sorted_cons]
    refine ⟨fun b hb => ?_, ih hx.of_cons hy⟩
    rcases mem_mergeLists.mp hb with hb | hb
    · exact (List.sorted_cons.mp hx).1 b hb
    · rcases List.mem_cons.mp hb with rfl | hb
      · exact h
      · exact h.trans ((List.sorted_cons.mp hy).1 b hb)
  | case4 x xs y ys h ih =>
    rw [mergeLists_cons_cons, if_neg h, List.sorted_cons]
    refine ⟨fun b hb => ?_, ih hx hy.of_cons⟩
    rcases mem_mergeLists.mp hb with hb | hb
    · rcases List.mem_cons.mp hb with rfl | hb
      · exact le_of_not_le h
      · exact (le_of_not_le h).trans ((List.sorted_cons.mp hx).1 b hb)
    · exact (List.sorted_cons.mp hy).1 b hb

theorem mergeLists_eq_append {xs ys : List ℚ}
    (h : ∀ a ∈ xs, ∀ b ∈ ys, a ≤ b) : mergeLists xs ys = xs ++ ys := by
  induction xs with
  | nil => simp [mergeLists_nil_left]
  | cons x xs ih =>
    cases ys with
    | nil => simp [mergeLists_nil_right]
    | cons y ys =>
      rw [mergeLists_cons_cons, if_pos (h x (by simp) y (by simp))]
      have := ih (fun a ha b hb => h a (List.mem_cons_of_mem x ha) b hb)
      rw [this, List.cons_append]

/-! ### Lemmas about the list-level merge sort -/

theorem sortList_of_length_le_one {l : List ℚ} (h : l.length ≤ 1) : sortList l = l := by
  rw [sortList, dif_pos h]

theorem sortList_eq_merge {l : List ℚ} (h : ¬ l.length ≤ 1) :
    sortList l = mergeLists (sortList (l.take ((l.length + 1) / 2)))
      (sortList (l.drop ((l.length + 1) / 2))) := by
  rw [sortList, dif_neg h]

theorem sortList_perm (l : List ℚ) : (sortList l).Perm l := by
  induction l using sortList.induct with
  | case1 l h => rw [sortList_of_length_le_one h]
  | case2 l h ih1 ih2 =>
    rw [sortList_eq_merge h]
    refine (mergeLists_perm _ _).trans ?_
    refine (List.Perm.append ih1 ih2).trans ?_
    rw [List.take_append_drop]

theorem length_sortList (l : List ℚ) : (sortList l).length = l.length :=
  (sortList_perm l).length_eq

theorem sorted_sortList (l : List ℚ) : (sortList l).Sorted (· ≤ ·) := by
  induction l using sortList.induct with
  | case1 l h =>
    rw [sortList_of_length_le_one h]
    match l, h with
    | [], _ => exact List.sorted_nil
    | [a], _ => exact List.sorted_singleton a
  | case2 l h ih1 ih2 =>
    rw [sortList_eq_merge h]
    exact sorted_mergeLists ih1 ih2

theorem sortList_eq_self_of_sorted {l : List ℚ} (h : l.Sorted (· ≤ ·)) :
    sortList l = l := by
  induction l using sortList.induct with
  | case1 l h1 => rw [sortList_of_length_le_one h1]
  | case2 l h1 ih1 ih2 =>
    have hsplit := List.take_append_drop ((l.length + 1) / 2) l
    have hcross : ∀ a ∈ l.take ((l.length + 1) / 2),
        ∀ b ∈ l.drop ((l.length + 1) / 2), a ≤ b := by
      have hh := h
      rw [← hsplit, List.Sorted, List.pairwise_append] at hh
      exact hh.2.2
    have htake : (l.take ((l.length + 1) / 2)).Sorted (· ≤ ·) :=
      h.sublist (List.take_sublist _ _)
    have hdrop : (l.drop ((l.length + 1) / 2)).Sorted (· ≤ ·) :=
      h.sublist (List.drop_sublist _ _)
    rw [sortList_eq_merge h1, ih1 htake, ih2 hdrop, mergeLists_eq_append hcross, hsplit]

/-! ### The range-level sort computes sortList on the slice -/

theorem length_sliceRange {arr : List ℚ} {l r : ℕ} (hr : r < arr.length) :
    (sliceRange arr l r).length = r + 1 - l := by
  simp only [sliceRange, List.length_take, List.length_drop]
  omega

theorem mergesort_serial_not_lt {arr : List ℚ} {l r : ℕ} (h : ¬ l < r) :
    mergesort_serial arr l r = arr := by
  rw [mergesort_serial, if_neg h]

theorem mergesort_serial_lt {arr : List ℚ} {l r : ℕ} (h : l < r) :
    mergesort_serial arr l r =
      merge (mergesort_serial (mergesort_serial arr l (l + (r - l) / 2))
          (l + (r - l) / 2 + 1) r) l (l + (r - l) / 2) r := by
  rw [mergesort_serial, if_pos h]

theorem sliceRange_self {arr : List ℚ} {l : ℕ} (h : l < arr.length) :
    arr.take l ++ sliceRange arr l l ++ arr.drop (l + 1) = arr := by
  have h1 : sliceRange arr l l ++ arr.drop (l + 1) = arr.drop l := by
    have h2 := List.take_append_drop (l + 1 - l) (arr.drop l)
    simpa [sliceRange, List.drop_drop] using h2
  rw [List.append_assoc, h1, List.take_append_drop]

theorem mergesort_serial_eq : ∀ (arr : List ℚ) (l r : ℕ), r < arr.length → l ≤ r →
    mergesort_serial arr l r =
      arr.take l ++ sortList (sliceRange arr l r) ++ arr.drop (r + 1) := by
  intro arr l r
  induction arr, l, r using mergesort_serial.induct with
  | case2 arr l r h =>
    intro hlen hle
    have hlr : l = r := by omega
    subst hlr
    rw [mergesort_serial_not_lt h]
    have hslen : (sliceRange arr l l).length ≤ 1 := by
      rw [length_sliceRange hlen]; omega
    rw [sortList_of_length_le_one hslen, sliceRange_self hlen]
  | case1 arr l r h mid ih1 ih2 ih3 =>
    intro hlen hle
    clear ih2
    have hmid : mid = l + (r - l) / 2 := rfl
    have hm1 : l ≤ mid := by omega
    have hm2 : mid < r := by omega
    have hmlen : mid < arr.length := by omega
    rw [mergesort_serial_lt h, ← hmid]
    have e1 := ih1 hmlen hm1
    rw [e1] at ih3
    rw [e1]
    set s := sortList (sliceRange arr l mid) with hs
    set A := arr.take l with hA
    set B := arr.drop (mid + 1) with hB
    set D := arr.drop (r + 1) with hD
    have hAlen : A.length = l := by rw [hA, List.length_take]; omega
    have hslen : s.length = mid + 1 - l := by
      rw [hs, length_sortList, length_sliceRange hmlen]
    have harr1len : (A ++ s ++ B).length = arr.length := by
      simp only [List.length_append, hAlen, hslen, hB, List.length_drop]; omega
    rw [ih3 (by rw [harr1len]; exact hlen) (by omega)]
    have hASlen : (A ++ s).length = mid + 1 := by
      simp only [List.length_append, hAlen, hslen]; omega
    have hdropmid : (A ++ s ++ B).drop (mid + 1) = B := List.drop_left' hASlen
    have htakemid : (A ++ s ++ B).take (mid + 1) = A ++ s := List.take_left' hASlen
    have hslice2 : sliceRange (A ++ s ++ B) (mid + 1) r = sliceRange arr (mid + 1) r := by
      simp only [sliceRange, hdropmid, hB]
    set t := sortList (sliceRange arr (mid + 1) r) with ht
    have htlen : t.length = r - mid := by
      rw [ht, length_sortList, length_sliceRange hlen]; omega
    have hdropsplit : ∀ (X : List ℚ), X.drop (r + 1) = (X.drop (mid + 1)).drop (r - mid) := by
      intro X; rw [List.drop_drop]; congr 1; omega
    have hdropr1 : (A ++ s ++ B).drop (r + 1) = D := by
      rw [hdropsplit, hdropmid, hB, ← hdropsplit, hD]
    rw [htakemid, hslice2, ← ht, hdropr1]
    -- now the outer merge on Y = (A ++ s) ++ t ++ D
    have hY : (A ++ s) ++ t ++ D = A ++ (s ++ (t ++ D)) := by
      simp [List.append_assoc]
    have hmrg : merge ((A ++ s) ++ t ++ D) l mid r = A ++ mergeLists s t ++ D := by
      have h1 : ((A ++ s) ++ t ++ D).take l = A := by
        rw [hY]; exact List.take_left' hAlen
      have h2 : sliceRange ((A ++ s) ++ t ++ D) l mid = s := by
        have hd : ((A ++ s) ++ t ++ D).drop l = s ++ (t ++ D) := by
          rw [hY]; exact List.drop_left' hAlen
        simp only [sliceRange, hd]
        have : mid + 1 - l = s.length := by omega
        rw [this]; exact List.take_left' rfl
      have h3 : sliceRange ((A ++ s) ++ t ++ D) (mid + 1) r = t := by
        have hd : ((A ++ s) ++ t ++ D).drop (mid + 1) = t ++ D := by
          have : (A ++ s) ++ t ++ D = (A ++ s) ++ (t ++ D) := by
            simp [List.append_assoc]
          rw [this]; exact List.drop_left' hASlen
        simp only [sliceRange, hd]
        have : r + 1 - (mid + 1) = t.length := by omega
        rw [this]; exact List.take_left' rfl
      have h4 : ((A ++ s) ++ t ++ D).drop (r + 1) = D := by
        refine List.drop_left' ?_
        simp only [List.length_append, hAlen, hslen, htlen]; omega
      rw [merge, h1, h2, h3, h4]
    rw [hmrg]
    -- finally identify mergeLists s t with sortList of the whole slice
    have hn : (sliceRange arr l r).length = r + 1 - l := length_sliceRange hlen
    have hn2 : ¬ (sliceRange arr l r).length ≤ 1 := by omega
    rw [sortList_eq_merge hn2, hn]
    have hm : (r + 1 - l + 1) / 2 = mid + 1 - l := by rw [hmid]; omega
    rw [hm]
    have htake : (sliceRange arr l r).take (mid + 1 - l) = sliceRange arr l mid := by
      simp only [sliceRange, List.take_take]
      congr 1; omega
    have hdrop : (sliceRange arr l r).drop (mid + 1 - l) = sliceRange arr (mid + 1) r := by
      simp only [sliceRange, List.drop_take, List.drop_drop]
      have e2 : l + (mid + 1 - l) = mid + 1 := by omega
      have e3 : r + 1 - l - (mid + 1 - l) = r + 1 - (mid + 1) := by omega
      rw [e2, e3]
    rw [htake, hdrop, ← hs, ← ht]

theorem mergesort_parallel_guard {arr : List ℚ} {l r : ℕ} {d : Int}
    (h : d ≤ 0 ∨ r - l ≤ 1000) :
    mergesort_parallel arr l r d = mergesort_serial arr l r := by
  rw [mergesort_parallel, if_pos h]

theorem mergesort_parallel_fork {arr : List ℚ} {l r : ℕ} {d : Int}
    (h1 : ¬ (d ≤ 0 ∨ r - l ≤ 1000)) (h2 : l < r) :
    mergesort_parallel arr l r d =
      merge (mergesort_parallel (mergesort_parallel arr l (l + (r - l) / 2) (d - 1))
          (l + (r - l) / 2 + 1) r (d - 1)) l (l + (r - l) / 2) r := by
  rw [mergesort_parallel, if_neg h1, if_pos h2]

theorem mergesort_parallel_eq_serial (arr : List ℚ) (l r : ℕ) (d : Int) :
    mergesort_parallel arr l r d = mergesort_serial arr l r := by
  induction arr, l, r, d using mergesort_parallel.induct with
  | case1 arr l r d h => exact mergesort_parallel_guard h
  | case2 arr l r d h1 h2 mid ih1 ih2 ih3 =>
    have hmid : mid = l + (r - l) / 2 := rfl
    rw [mergesort_parallel_fork h1 h2, ← hmid, ih3, ih1, mergesort_serial_lt h2, ← hmid]
  | case3 arr l r d h1 h2 =>
    exfalso
    push_neg at h1
    omega

theorem parallel_sort_ok_eq_sortList (d : Int) (arr : List ℚ) :
    parallel_sort true d arr = sortList arr := by
  rw [parallel_sort, if_pos rfl, mergesort_parallel_eq_serial]
  cases arr with
  | nil =>
    rw [mergesort_serial_not_lt (by simp), sortList_of_length_le_one (by simp)]
  | cons a t =>
    have hr : (a :: t).length - 1 < (a :: t).length := by simp
    have heq := mergesort_serial_eq (a :: t) 0 ((a :: t).length - 1) hr (by omega)
    rw [heq]
    have hslice : sliceRange (a :: t) 0 ((a :: t).length - 1) = a :: t := by
      simp only [sliceRange, List.drop_zero]
      have : (a :: t).length - 1 + 1 - 0 = (a :: t).length := by simp
      rw [this, List.take_length]
    have hdrop : (a :: t).drop ((a :: t).length - 1 + 1) = [] := by
      apply List.drop_eq_nil_of_le
      omega
    rw [hslice, hdrop, List.take_zero, List.nil_append, List.append_nil]

/-! ### Lemmas about the reduction -/

theorem opFun_zero (x y : ℚ) : opFun 0 x y = x + y := by norm_num [opFun]
theorem opFun_one (x y : ℚ) : opFun 1 x y = x * y := by norm_num [opFun]
theorem opFun_two (x y : ℚ) : opFun 2 x y = max x y := by
  norm_num [opFun]
  rcases le_or_lt y x with h | h
  · rw [if_neg (not_lt.mpr h), max_eq_left h]
  · rw [if_pos h, max_eq_right h.le]
theorem opFun_three (x y : ℚ) : opFun 3 x y = min x y := by
  norm_num [opFun]
  rcases le_or_lt x y with h | h
  · rw [if_neg (not_lt.mpr h), min_eq_left h]
  · rw [if_pos h, min_eq_right h.le]

theorem opFun_assoc {op : Int} (hop : op = 0 ∨ op = 1 ∨ op = 2 ∨ op = 3)
    (x y z : ℚ) : opFun op (opFun op x y) z = opFun op x (opFun op y z) := by
  rcases hop with rfl | rfl | rfl | rfl
  · simp only [opFun_zero]; ring
  · simp only [opFun_one]; ring
  · simp only [opFun_two]; exact max_assoc x y z
  · simp only [opFun_three]; exact min_assoc x y z

theorem combineOne_chunkAcc {f : ℚ → ℚ → ℚ}
    (hf : ∀ x y z : ℚ, f (f x y) z = f x (f y z)) :
    ∀ (c : List ℚ) (r : Option ℚ) (x : ℚ),
      combineOne f x
          (c.foldl (fun r a => some (match r with | none => a | some v => f v a)) r)
        = c.foldl f (combineOne f x r) := by
  intro c
  induction c with
  | nil => intro r x; rfl
  | cons a t ih =>
    intro r x
    rw [List.foldl_cons, List.foldl_cons, ih]
    congr 1
    cases r with
    | none => rfl
    | some v => exact (hf x v a).symm

theorem combineOne_chunkAcc_none {f : ℚ → ℚ → ℚ}
    (hf : ∀ x y z : ℚ, f (f x y) z = f x (f y z)) (c : List ℚ) (x : ℚ) :
    combineOne f x (chunkAcc f c) = c.foldl f x := by
  have h := combineOne_chunkAcc hf c none x
  simpa [chunkAcc] using h

theorem ompChunkedReduce_eq_foldl {f : ℚ → ℚ → ℚ}
    (hf : ∀ x y z : ℚ, f (f x y) z = f x (f y z)) :
    ∀ (chunks : List (List ℚ)) (initial : ℚ),
      ompChunkedReduce f chunks initial = (chunks.join).foldl f initial := by
  intro chunks
  induction chunks with
  | nil => intro i; rfl
  | cons c cs ih =>
    intro i
    have h1 : ompChunkedReduce f (c :: cs) i
        = ompChunkedReduce f cs (combineOne f i (chunkAcc f c)) := by
      simp only [ompChunkedReduce, List.map_cons, List.foldl_cons]
    rw [h1, ih, combineOne_chunkAcc_none hf,
      show (c :: cs).join = c ++ cs.join from rfl, List.foldl_append]

theorem parallel_reduce_eq_foldl {op : Int} (hop : op = 0 ∨ op = 1 ∨ op = 2 ∨ op = 3)
    (arr : List ℚ) (initial : ℚ) :
    parallel_reduce arr initial op = arr.foldl (opFun op) initial := by
  rcases hop with rfl | rfl | rfl | rfl <;> norm_num [parallel_reduce]

/-! ### Lemmas about the transform -/

theorem parallel_transform_getElem {func : ℚ → ℚ} {inp : List ℚ} :
    ∀ (order : List ℕ) (o : List ℚ), o.length = inp.length →
      ∀ i, i < inp.length →
        (parallel_transform func inp o order)[i]? =
          if i ∈ order then (inp[i]?).map func else o[i]? := by
  intro order
  induction order with
  | nil =>
    intro o ho i hi
    simp [parallel_transform]
  | cons a t ih =>
    intro o ho i hi
    have hstep : parallel_transform func inp o (a :: t)
        = parallel_transform func inp (o.set a (func (inp.getD a 0))) t := by
      simp [parallel_transform]
    rw [hstep, ih _ (by simpa using ho) i hi]
    by_cases hit : i ∈ t
    · rw [if_pos hit, if_pos (List.mem_cons_of_mem a hit)]
    · rw [if_neg hit]
      by_cases hia : i = a
      · subst hia
        rw [if_pos (List.mem_cons_self i t)]
        have hilen : i < o.length := ho ▸ hi
        rw [List.getElem?_set_self hilen, List.getElem?_eq_getElem hi,
          List.getD_eq_getElem?_getD, List.getElem?_eq_getElem hi]
        rfl
      · rw [List.getElem?_set_ne (fun h => hia h.symm),
          if_neg (fun hmem => (List.mem_cons.mp hmem).elim (fun h => hia h) hit)]

/-! ### Stability of the merge step -/

theorem mergeKeyed_nil_left (ys : List (ℚ × ℕ)) : mergeKeyed [] ys = ys := by
  cases ys <;> simp [mergeKeyed]

theorem mergeKeyed_nil_right (xs : List (ℚ × ℕ)) : mergeKeyed xs [] = xs := by
  cases xs <;> simp [mergeKeyed]

theorem mergeKeyed_cons_cons (x y : ℚ × ℕ) (xs ys : List (ℚ × ℕ)) :
    mergeKeyed (x :: xs) (y :: ys) =
      if x.1 ≤ y.1 then x :: mergeKeyed xs (y :: ys)
      else y :: mergeKeyed (x :: xs) ys := by
  simp [mergeKeyed]

theorem map_fst_mergeKeyed : ∀ (xs ys : List (ℚ × ℕ)),
    (mergeKeyed xs ys).map Prod.fst = mergeLists (xs.map Prod.fst) (ys.map Prod.fst) := by
  intro xs ys
  induction xs, ys using mergeKeyed.induct with
  | case1 ys => simp [mergeKeyed_nil_left]; cases ys <;> simp [mergeLists]
  | case2 xs => simp [mergeKeyed_nil_right]; cases xs <;> simp [mergeLists]
  | case3 x xs y ys h ih =>
    rw [mergeKeyed_cons_cons, if_pos h]
    simp only [List.map_cons]
    rw [ih]
    simp only [List.map_cons, mergeLists]
    rw [if_pos h]
  | case4 x xs y ys h ih =>
    rw [mergeKeyed_cons_cons, if_neg h]
    simp only [List.map_cons]
    rw [ih]
    simp only [List.map_cons, mergeLists]
    rw [if_neg h]

theorem sortedKey_mergeKeyed {xs ys : List (ℚ × ℕ)}
    (hx : xs.Pairwise (fun p q => p.1 ≤ q.1)) (hy : ys.Pairwise (fun p q => p.1 ≤ q.1)) :
    (mergeKeyed xs ys).Pairwise (fun p q => p.1 ≤ q.1) := by
  have h1 : ((mergeKeyed xs ys).map Prod.fst).Sorted (· ≤ ·) := by
    rw [map_fst_mergeKeyed]
    exact sorted_mergeLists (List.pairwise_map.mpr hx) (List.pairwise_map.mpr hy)
  exact List.pairwise_map.mp h1

theorem filter_key_eq_nil {k : ℚ} {x : ℚ × ℕ} {xs : List (ℚ × ℕ)}
    (hx : (x :: xs).Pairwise (fun p q => p.1 ≤ q.1)) (hk : k < x.1) :
    (x :: xs).filter (fun p => decide (p.1 = k)) = [] := by
  rw [List.filter_eq_nil]
  intro p hp
  simp only [decide_eq_true_eq]
  rcases List.mem_cons.mp hp with rfl | hp
  · exact fun he => absurd he.symm (ne_of_lt hk)
  · have := (List.pairwise_cons.mp hx).1 p hp
    exact fun he => absurd (he ▸ this) (not_le.mpr hk)

theorem mergeKeyed_filter_key {xs ys : List (ℚ × ℕ)}
    (hx : xs.Pairwise (fun p q => p.1 ≤ q.1)) (hy : ys.Pairwise (fun p q => p.1 ≤ q.1))
    (k : ℚ) :
    (mergeKeyed xs ys).filter (fun p => decide (p.1 = k)) =
      xs.filter (fun p => decide (p.1 = k)) ++ ys.filter (fun p => decide (p.1 = k)) := by
  induction xs, ys using mergeKeyed.induct with
  | case1 ys => simp [mergeKeyed_nil_left]
  | case2 xs => simp [mergeKeyed_nil_right]
  | case3 x xs y ys h ih =>
    rw [mergeKeyed_cons_cons, if_pos h]
    rw [List.filter_cons, List.filter_cons]
    rw [ih (List.Pairwise.of_cons hx) hy]
    by_cases hxk : x.1 = k <;> simp [hxk]
  | case4 x xs y ys h ih =>
    rw [mergeKeyed_cons_cons, if_neg h]
    rw [List.filter_cons, ih hx (List.Pairwise.of_cons hy)]
    by_cases hyk : y.1 = k
    · have hnil : (x :: xs).filter (fun p => decide (p.1 = k)) = [] :=
        filter_key_eq_nil hx (hyk ▸ lt_of_not_le h)
      simp [hyk, hnil, List.filter_cons]
    · simp [hyk, List.filter_cons]

/-! ### Claim theorems -/

/-- C1: for every array and length (and every depth budget, i.e. thread
count), parallel_sort leaves the array sorted in non-decreasing order and the
result is a permutation of the input (same multiset, hence same length); on an
empty or single-element array it leaves the array unchanged. -/
theorem parallel_sort_sorts_and_permutes (arr : List ℚ) (max_depth : Int) :
    (parallel_sort true max_depth arr).Sorted (· ≤ ·) ∧
    (parallel_sort true max_depth arr).Perm arr ∧
    (arr.length ≤ 1 → parallel_sort true max_depth arr = arr) := by
  rw [parallel_sort_ok_eq_sortList]
  exact ⟨sorted_sortList arr, sortList_perm arr, fun h => sortList_of_length_le_one h⟩

/-- Witness for C1 at the single-element array [1] with depth 8. -/
theorem parallel_sort_sorts_and_permutes_witness :
    (parallel_sort true 8 [1]).Sorted (· ≤ ·) ∧ (parallel_sort true 8 [1]).Perm [1] ∧
      parallel_sort true 8 [1] = [1] := by
  have h := parallel_sort_sorts_and_permutes [1] 8
  exact ⟨h.1, h.2.1, h.2.2 (by decide)⟩

/-- C2: for every array, initial value and operator in {0 Sum, 1 Product,
2 Max, 3 Min}, parallel_reduce equals the sequential left-fold of the operator
over the array seeded with the initial value, for every chunking of the
iteration range (exact arithmetic); a zero-length array returns the initial
value unchanged and a single-element array returns that element combined with
the initial value. -/
theorem parallel_reduce_matches_sequential_fold (arr : List ℚ) (initial : ℚ)
    (op : Int) (hop : op = 0 ∨ op = 1 ∨ op = 2 ∨ op = 3) :
    (∀ chunks : List (List ℚ), chunks.join = arr →
      ompChunkedReduce (opFun op) chunks initial = parallel_reduce arr initial op) ∧
    parallel_reduce arr initial op = arr.foldl (opFun op) initial ∧
    parallel_reduce [] initial op = initial ∧
    (∀ a : ℚ, parallel_reduce [a] initial op = opFun op initial a) := by
  refine ⟨?_, parallel_reduce_eq_foldl hop arr initial, ?_, ?_⟩
  · intro chunks hchunks
    rw [ompChunkedReduce_eq_foldl (opFun_assoc hop) chunks initial, hchunks,
      parallel_reduce_eq_foldl hop]
  · rw [parallel_reduce_eq_foldl hop]
    rfl
  · intro a
    rw [parallel_reduce_eq_foldl hop]
    rfl

/-- Witness for C2: summing [1,2,3] from 0 split into chunks [1] and [2,3]. -/
theorem parallel_reduce_matches_sequential_fold_witness :
    ompChunkedReduce (opFun 0) [[1], [2, 3]] 0 = parallel_reduce [1, 2, 3] 0 0 ∧
      parallel_reduce [1, 2, 3] 0 0 = [1, 2, 3].foldl (opFun 0) 0 := by
  have h := parallel_reduce_matches_sequential_fold [1, 2, 3] 0 0 (by decide)
  exact ⟨h.1 [[1], [2, 3]] (by decide), h.2.1⟩

/-- C3: for input and output arrays of equal length and any pure unary
function, after parallel_transform the output satisfies
output[i] = f(input[i]) for every i in range, for every execution order of
the iterations (i.e. regardless of partitioning or thread count). -/
theorem parallel_transform_pointwise (func : ℚ → ℚ) (inp out : List ℚ)
    (order : List ℕ) (hlen : out.length = inp.length)
    (hcover : ∀ i < inp.length, i ∈ order) :
    ∀ i < inp.length,
      (parallel_transform func inp out order)[i]? = (inp[i]?).map func := by
  intro i hi
  rw [parallel_transform_getElem order out hlen i hi, if_pos (hcover i hi)]

/-- Witness for C3: squaring [1,2] into [0,0] with the iterations executed in
the order 1, 0. -/
theorem parallel_transform_pointwise_witness :
    (parallel_transform (fun x => x * x) [1, 2] [0, 0] [1, 0])[0]? =
      (([1, 2] : List ℚ)[0]?).map (fun x => x * x) :=
  parallel_transform_pointwise (fun x => x * x) [1, 2] [0, 0] [1, 0]
    (by decide) (by decide) 0 (by decide)

/-- C4: the spec demands that an operator code outside {0,1,2,3} fail fast
with an invalid-argument report, but the switch in parallel_reduce has no
default branch and the function returns a plain double with no error channel:
op = 4 silently returns the initial value, indistinguishable from the
successful sum of an empty array. -/
theorem parallel_reduce_invalid_op_silent :
    parallel_reduce [1, 2, 3] 0 4 = 0 ∧ parallel_reduce [] 0 0 = 0 := by
  decide

/-- C5: on allocation failure parallel_sort does leave the array unmodified,
but the C function returns void, so the failing call on [1,2] is
observationally identical to a successful call: the caller cannot detect the
failure, contrary to the spec. -/
theorem parallel_sort_alloc_failure_silent :
    (∀ (arr : List ℚ) (d : Int), parallel_sort false d arr = arr) ∧
    parallel_sort false 4 [1, 2] = parallel_sort true 4 [1, 2] := by
  constructor
  · intro arr d
    simp [parallel_sort]
  · rw [parallel_sort_ok_eq_sortList, sortList_eq_self_of_sorted (by decide)]
    simp [parallel_sort]

/-- C6 counterexample: the task (left, right, depth) = (0, 1000, 5) covers
1001 elements (range size 1000 + 1 - 0 > 1000) with positive depth, so by the
claim it should fork; the code's guard right - left <= 1000 sends it to the
sequential fallback instead. -/
theorem cutoff_guard_counterexample :
    takesSequentialFallback 0 1000 5 = true ∧
      ¬ ((5 : Int) ≤ 0 ∨ (1000 : ℕ) + 1 - 0 ≤ 1000) := by
  decide

/-- C6 (amended): the recursive sorter takes the sequential fallback exactly
when depth ≤ 0 or right - left ≤ 1000 (range length at most 1001, not 1000),
otherwise it forks (left, mid, depth-1) and (mid+1, right, depth-1) and merges
after both complete; depth ≤ 0 forces the sequential path regardless of range
size, and arrays of both boundary lengths 1000 and 1001 are sorted
correctly. -/
theorem mergesort_parallel_branch_structure :
    (∀ (l r : ℕ) (d : Int),
      takesSequentialFallback l r d = true ↔ (d ≤ 0 ∨ r - l ≤ 1000)) ∧
    (∀ (arr : List ℚ) (l r : ℕ) (d : Int), takesSequentialFallback l r d = true →
      mergesort_parallel arr l r d = mergesort_serial arr l r) ∧
    (∀ (arr : List ℚ) (l r : ℕ) (d : Int), takesSequentialFallback l r d = false →
      mergesort_parallel arr l r d =
        merge (mergesort_parallel (mergesort_parallel arr l (l + (r - l) / 2) (d - 1))
            (l + (r - l) / 2 + 1) r (d - 1)) l (l + (r - l) / 2) r) ∧
    (∀ (arr : List ℚ) (d : Int), arr.length = 1000 ∨ arr.length = 1001 →
      (parallel_sort true d arr).Sorted (· ≤ ·) ∧ (parallel_sort true d arr).Perm arr) := by
  refine ⟨?_, ?_, ?_, ?_⟩
  · intro l r d
    rw [takesSequentialFallback]
    simp only [Bool.or_eq_true, decide_eq_true_eq]
  · intro arr l r d h
    simp only [takesSequentialFallback, Bool.or_eq_true, decide_eq_true_eq] at h
    exact mergesort_parallel_guard h
  · intro arr l r d h
    rw [takesSequentialFallback] at h
    have hd : ¬ (d ≤ 0) := by
      intro hc
      simp [hc] at h
    have hr : ¬ (r - l ≤ 1000) := by
      intro hc
      simp [hc] at h
    exact mergesort_parallel_fork (fun hor => hor.elim hd hr) (by omega)
  · intro arr d _
    rw [parallel_sort_ok_eq_sortList]
    exact ⟨sorted_sortList arr, sortList_perm arr⟩

/-- Witness for C6 at concrete tasks: (2,5,0) is sequential by depth, (0,2,0)
executes the fallback, (0,1001,1) forks, and the all-zero array of boundary
length 1000 sorts correctly. -/
theorem mergesort_parallel_branch_structure_witness :
    (takesSequentialFallback 2 5 0 = true ↔ ((0 : Int) ≤ 0 ∨ 5 - 2 ≤ 1000)) ∧
    mergesort_parallel [3, 1, 2] 0 2 0 = mergesort_serial [3, 1, 2] 0 2 ∧
    mergesort_parallel ([] : List ℚ) 0 1001 1 =
      merge (mergesort_parallel (mergesort_parallel [] 0 (0 + (1001 - 0) / 2) (1 - 1))
          (0 + (1001 - 0) / 2 + 1) 1001 (1 - 1)) 0 (0 + (1001 - 0) / 2) 1001 ∧
    ((parallel_sort true 4 (List.replicate 1000 (0 : ℚ))).Sorted (· ≤ ·) ∧
      (parallel_sort true 4 (List.replicate 1000 (0 : ℚ))).Perm
        (List.replicate 1000 (0 : ℚ))) := by
  have h := mergesort_parallel_branch_structure
  exact ⟨h.1 2 5 0, h.2.1 [3, 1, 2] 0 2 0 (by decide),
    h.2.2.1 [] 0 1001 1 (by decide),
    h.2.2.2 (List.replicate 1000 0) 4 (Or.inl (by rw [List.length_replicate]))⟩

/-- C7: the merge step compares with <= so that ties take the left-half
element first: on sorted inputs the merged output is sorted, elements with any
given key appear as all the left-half ones followed by all the right-half ones
(left-half-first relative order on ties), the tagged merge projects to the
value-level merge, and merge writes the merged runs back over [left, right]. -/
theorem merge_step_stable (xs ys : List ℚ) (ps qs : List (ℚ × ℕ))
    (hx : xs.Sorted (· ≤ ·)) (hy : ys.Sorted (· ≤ ·))
    (hp : ps.Pairwise (fun p q => p.1 ≤ q.1)) (hq : qs.Pairwise (fun p q => p.1 ≤ q.1)) :
    (mergeLists xs ys).Sorted (· ≤ ·) ∧
    (mergeKeyed ps qs).Pairwise (fun p q => p.1 ≤ q.1) ∧
    (∀ k : ℚ, (mergeKeyed ps qs).filter (fun p => decide (p.1 = k)) =
      ps.filter (fun p => decide (p.1 = k)) ++ qs.filter (fun p => decide (p.1 = k))) ∧
    (mergeKeyed ps qs).map Prod.fst = mergeLists (ps.map Prod.fst) (qs.map Prod.fst) ∧
    (∀ (arr : List ℚ) (l m r : ℕ), merge arr l m r =
      arr.take l ++ mergeLists (sliceRange arr l m) (sliceRange arr (m + 1) r)
        ++ arr.drop (r + 1)) :=
  ⟨sorted_mergeLists hx hy, sortedKey_mergeKeyed hp hq,
    fun k => mergeKeyed_filter_key hp hq k, map_fst_mergeKeyed ps qs,
    fun _ _ _ _ => rfl⟩

/-- Witness for C7: merging the tagged runs [(1,0)] and [(1,1)] keeps the
left-half element with key 1 first. -/
theorem merge_step_stable_witness :
    (mergeKeyed [(1, 0)] [(1, 1)]).filter (fun p => decide (p.1 = 1)) =
      ([((1 : ℚ), 0)]).filter (fun p => decide (p.1 = 1))
        ++ ([((1 : ℚ), 1)]).filter (fun p => decide (p.1 = 1)) :=
  (merge_step_stable [1] [2] [(1, 0)] [(1, 1)]
    (by decide) (by decide) (by decide) (by decide)).2.2.1 1

/-- C8: sorting an already-sorted array leaves its contents unchanged, so
sorting twice (with any depth budgets) yields the same array as sorting
once. -/
theorem parallel_sort_idempotent (arr : List ℚ) (d d2 : Int) :
    (arr.Sorted (· ≤ ·) → parallel_sort true d arr = arr) ∧
    parallel_sort true d2 (parallel_sort true d arr) = parallel_sort true d arr := by
  constructor
  · intro h
    rw [parallel_sort_ok_eq_sortList]
    exact sortList_eq_self_of_sorted h
  · rw [parallel_sort_ok_eq_sortList, parallel_sort_ok_eq_sortList]
    exact sortList_eq_self_of_sorted (sorted_sortList arr)

/-- Witness for C8 on the sorted array [1,2,3] and on sorting [2,1] twice. -/
theorem parallel_sort_idempotent_witness :
    parallel_sort true 2 [1, 2, 3] = [1, 2, 3] ∧
    parallel_sort true 3 (parallel_sort true 2 [2, 1]) = parallel_sort true 2 [2, 1] := by
  have h := parallel_sort_idempotent [1, 2, 3] 2 3
  have h2 := parallel_sort_idempotent [2, 1] 2 3
  exact ⟨h.1 (by decide), h2.2⟩

/-- C9: for every array, range and depth budget (negative ones included),
mergesort_parallel computes exactly the contents mergesort_serial computes:
the depth budget affects only the task structure, never the result; in
particular parallel_sort is the serial merge sort of the full range. -/
theorem mergesort_parallel_refines_serial (arr : List ℚ) (l r : ℕ) (d : Int) :
    mergesort_parallel arr l r d = mergesort_serial arr l r ∧
    parallel_sort true d arr = mergesort_serial arr 0 (arr.length - 1) := by
  constructor
  · exact mergesort_parallel_eq_serial arr l r d
  · rw [parallel_sort, if_pos rfl, mergesort_parallel_eq_serial]

/-- C10: an operator code outside {0,1,2,3} hits no case of the switch (there
is no default branch), so no reduction loop runs and parallel_reduce returns
the supplied initial value unchanged with no error signalled; the input array
is untouched (it is taken via a const pointer and never written). -/
theorem parallel_reduce_invalid_op_identity (arr : List ℚ) (initial : ℚ)
    (op : Int) (h0 : op ≠ 0) (h1 : op ≠ 1) (h2 : op ≠ 2) (h3 : op ≠ 3) :
    parallel_reduce arr initial op = initial := by
  rw [parallel_reduce, if_neg h0, if_neg h1, if_neg h2, if_neg h3]

/-- Witness for C10 at op = 4. -/
theorem parallel_reduce_invalid_op_identity_witness :
    parallel_reduce [5, 6] 7 4 = 7 :=
  parallel_reduce_invalid_op_identity [5, 6] 7 4
    (by decide) (by decide) (by decide) (by decide)
